import Mathlib

set_option maxHeartbeats 1000000

/-! Verification of the smart-search query parsing and orchestration in
`src/server/src/services/search.service.ts`.

The parser (`parseQuery`) and the orchestrator (`searchSmart`) are embedded
as pure Lean functions over `List Char` (JS strings) with collaborator
calls modelled as oracle functions in an `Env` record and recorded in an
event trace. -/

/-- The set of JavaScript regex whitespace characters (`\s`), which is also
the character set stripped by `String.prototype.trim`. -/
def jsWs (c : Char) : Bool :=
  c == ' ' || c == '\t' || c == '\n' || c == '\r' ||
  c == Char.ofNat 11 || c == Char.ofNat 12 ||
  c == Char.ofNat 0xA0 || c == Char.ofNat 0x1680 ||
  (0x2000 ≤ c.toNat && c.toNat ≤ 0x200A) ||
  c == Char.ofNat 0x2028 || c == Char.ofNat 0x2029 ||
  c == Char.ofNat 0x202F || c == Char.ofNat 0x205F ||
  c == Char.ofNat 0x3000 || c == Char.ofNat 0xFEFF

/-- ASCII lower-casing; the canonicalisation performed by the `i` flag of the
`/similarTo:([^\s]+)/gi` regex on its all-ASCII pattern. -/
def asciiLower (c : Char) : Char :=
  if 65 ≤ c.toNat ∧ c.toNat ≤ 90 then Char.ofNat (c.toNat + 32) else c

/-- The lower-cased fixed head `similarTo:` of the reference regex. -/
def simPat : List Char := "similarto:".toList

/-- The token part of a reference match starting at the head of `s`: the
maximal run of non-whitespace characters after the 10-character head
(the capture group `([^\s]+)` of the regex). -/
def tokenAt (s : List Char) : List Char :=
  (s.drop 10).takeWhile (fun c => !jsWs c)

/-- Whether `/similarTo:([^\s]+)/i` matches at the head of `s`. -/
def matchStartB (s : List Char) : Bool :=
  ((s.take 10).map asciiLower == simPat) && !(tokenAt s).isEmpty

/-- Whether the reference regex matches anywhere in `s`. -/
def hasMatch : List Char → Bool
  | [] => false
  | c :: rest => matchStartB (c :: rest) || hasMatch rest

/-- Fuelled scanner for the `while ((match = similarToRegex.exec(...)))` loop:
find the leftmost match, emit `(match[0], match[1])`, continue right after it. -/
def scanF : Nat → List Char → List (List Char × List Char)
  | 0, _ => []
  | _ + 1, [] => []
  | n + 1, c :: rest =>
    if matchStartB (c :: rest) then
      ((c :: rest).take (10 + (tokenAt (c :: rest)).length), tokenAt (c :: rest))
        :: scanF n ((c :: rest).drop (10 + (tokenAt (c :: rest)).length))
    else scanF n rest

/-- All matches of `/similarTo:([^\s]+)/gi` in `s`, left to right and
non-overlapping, as `(match[0], match[1])` pairs. -/
def scan (s : List Char) : List (List Char × List Char) := scanF s.length s

/-- `searchText.replace(m, '')` for a plain (non-regex) pattern `m`: remove
the first occurrence of `m`, if any. -/
def removeFirst (m : List Char) : List Char → List Char
  | [] => []
  | c :: rest =>
    if m.isPrefixOf (c :: rest) then (c :: rest).drop m.length
    else c :: removeFirst m rest

/-- `.replace(/,\s*$/, '')`: delete the first comma that is followed only by
whitespace up to the end of the string, together with that whitespace. -/
def strip1 : List Char → List Char
  | [] => []
  | c :: rest => if c == ',' && rest.all jsWs then [] else c :: strip1 rest

/-- `.replace(/\s*,$/, '')`: if the string ends in a comma, delete that comma
and the run of whitespace immediately before it. -/
def strip2 (s : List Char) : List Char :=
  match s.reverse with
  | ',' :: r => (r.dropWhile jsWs).reverse
  | _ => s

/-- Fuelled body of `.replaceAll(/\s{2,}/g, ' ')`: each maximal run of two or
more whitespace characters becomes one space; single whitespace characters
are kept as they are. -/
def collapseF : Nat → List Char → List Char
  | 0, s => s
  | _ + 1, [] => []
  | n + 1, c :: rest =>
    match rest with
    | [] => [c]
    | d :: rest' =>
      if jsWs c && jsWs d then ' ' :: collapseF n ((d :: rest').dropWhile jsWs)
      else c :: collapseF n (d :: rest')

/-- `.replaceAll(/\s{2,}/g, ' ')` on the whole string. -/
def collapse (s : List Char) : List Char := collapseF s.length s

/-- `String.prototype.trim`: drop leading and trailing whitespace. -/
def jsTrim (s : List Char) : List Char :=
  ((s.dropWhile jsWs).reverse.dropWhile jsWs).reverse

/-- The post-processing chain applied to the remaining text in `parseQuery`:
`.replace(/,\s*$/, '').replace(/\s*,$/, '').replaceAll(/\s{2,}/g, ' ').trim()`. -/
def cleanup (s : List Char) : List Char := jsTrim (collapse (strip2 (strip1 s)))

/-- The structured query produced by `parseQuery`. -/
structure SmartSearchQuery where
  similarToAssetIds : List (List Char)
  searchText : List Char
  deriving DecidableEq, Repr

/-- `parseQuery` from the source: collect `match[1]` of every regex match into
`similarToAssetIds`, delete each `match[0]` (first occurrence, in match
order) from the text, then normalise trailing commas and whitespace. -/
def parseQuery (smartSearchQuery : List Char) : SmartSearchQuery :=
  let ms := scan smartSearchQuery
  { similarToAssetIds := ms.map Prod.snd
    searchText := cleanup (ms.foldl (fun t m => removeFirst m.1 t) smartSearchQuery) }

/-- The visibility filter of the search DTOs. -/
inductive AssetVisibility where
  | timeline
  | hidden
  | archive
  | locked
  deriving DecidableEq, Repr

/-- The authenticated caller. The elevated grant models the yes/no outcome of
`requireElevatedPermission` (its implementation lives outside the embedded
sources; the spec describes it as a gate that fails exactly when the
elevated-permission grant is absent). -/
structure AuthDto where
  userId : List Char
  elevated : Bool
  deriving DecidableEq, Repr

/-- The request DTO fields that `searchSmart` reads. -/
structure SmartSearchDto where
  query : List Char
  language : List Char
  page : Option Nat
  size : Option Nat
  visibility : Option AssetVisibility
  deriving DecidableEq, Repr

/-- The failure conditions surfaced by `searchSmart`. -/
inductive SearchError where
  | insufficientPermission
  | featureDisabled
  | queryNotUnderstood
  deriving DecidableEq, Repr

/-- One collaborator call, with the arguments the claims are about. -/
inductive Event where
  | getConfig
  | getPartnerIds (userId : List Char)
  | encodeText (text language : List Char)
  | getAssetEmbeddings (_ids : List (List Char))
  | averageEmbeddings (embeddings : List (List Char))
  | searchSmartRepo (page size : Nat) (userIds : List (List Char))
      (embedding : Option (List Char))
  deriving DecidableEq, Repr

/-- The response envelope built by `mapResponse` (albums facet is a constant
empty placeholder and is omitted). -/
structure SearchResponse where
  items : List Nat
  total : Nat
  count : Nat
  nextPage : Option (List Char)
  deriving DecidableEq, Repr

/-- The collaborator oracles: configuration, partner directory, machine
learning repository and search repository. -/
structure Env where
  smartSearchEnabled : Bool
  clipModelName : List Char
  partnerIds : List (List Char)
  encodeText : List Char → List Char → List Char
  getAssetEmbeddings : List (List Char) → List (List Char)
  averageEmbeddings : List (List Char) → List Char
  searchSmartRepo : Nat → Nat → List (List Char) → Option (List Char) →
    List Nat × Bool

/-- The `LRUMap<string, string>(100)` embedding cache, most recent first. -/
abbrev Cache := List (List Char × List Char)

/-- `LRUMap.get`: on a hit the entry moves to the most-recently-used slot. -/
def lruGet (cache : Cache) (key : List Char) : Option (List Char) × Cache :=
  match cache.find? (fun e => e.1 == key) with
  | some e => (some e.2, e :: cache.filter (fun e2 => !(e2.1 == key)))
  | none => (none, cache)

/-- `LRUMap.set` with capacity 100: insert at the most-recently-used slot,
dropping the least-recently-used entry when over capacity. -/
def lruSet (cache : Cache) (key value : List Char) : Cache :=
  ((key, value) :: cache.filter (fun e => !(e.1 == key))).take 100

/-- JavaScript truthiness of an array value: every object, including an empty
array, is truthy, so `!someArray` is always false. This is how the source's
`!searchBreakdown.similarToAssetIds` and
`if (searchBreakdown.similarToAssetIds)` evaluate. -/
def jsArrayTruthy (_ids : List (List Char)) : Bool := true

/-- JavaScript truthiness of a string value: only the empty string is falsy. -/
def jsStringTruthy (s : List Char) : Bool := !s.isEmpty

/-- Falsiness of a `string | undefined` value: `undefined` and `''`. -/
def jsOptStringFalsy : Option (List Char) → Bool
  | none => true
  | some s => s.isEmpty

/-- The embedding-cache key built at line 152 of the source:
`machineLearning.clip.modelName + dto.query + dto.language`
(plain string concatenation of model name, raw query and language). -/
def cacheKey (modelName text language : List Char) : List Char :=
  modelName ++ text ++ language

/-- `mapResponse` from the source, restricted to the asset fields. -/
def mapResponse (items : List Nat) (nextPage : Option (List Char)) :
    SearchResponse :=
  { items := items, total := items.length, count := items.length
    nextPage := nextPage }

/-- `searchSmart` from the source, as a sequential program over the
collaborator oracles. It returns the result, the collaborator calls in
program order, and the updated embedding cache. The duplicated logic of the
source is kept as written: the single-cached-embedding block (lines 151-166)
runs first and its result is discarded by the redeclaration at lines 168-169,
then the multi-reference block (lines 171-214) produces the result. -/
def searchSmart (env : Env) (cache : Cache) (auth : AuthDto)
    (dto : SmartSearchDto) :
    Except SearchError SearchResponse × List Event × Cache :=
  if dto.visibility = some AssetVisibility.locked ∧ auth.elevated = false then
    (Except.error SearchError.insufficientPermission, [], cache)
  else
    let tr0 : List Event := [Event.getConfig]
    if env.smartSearchEnabled = false then
      (Except.error SearchError.featureDisabled, tr0, cache)
    else
      let userIds := auth.userId :: env.partnerIds
      let tr1 := tr0 ++ [Event.getPartnerIds auth.userId]
      let key := cacheKey env.clipModelName dto.query dto.language
      let looked := lruGet cache key
      let step :=
        if jsOptStringFalsy looked.1 then
          let e := env.encodeText dto.query dto.language
          (e, [Event.encodeText dto.query dto.language], lruSet looked.2 key e)
        else (looked.1.getD [], ([] : List Event), looked.2)
      let tr2 := tr1 ++ step.2.1
      let cache2 := step.2.2
      let page := dto.page.getD 1
      let size :=
        match dto.size with
        | some n => if n = 0 then 100 else n
        | none => 100
      let tr3 := tr2 ++ [Event.searchSmartRepo page size userIds (some step.1)]
      let searchBreakdown := parseQuery dto.query
      if !jsStringTruthy searchBreakdown.searchText
          && !jsArrayTruthy searchBreakdown.similarToAssetIds then
        (Except.error SearchError.queryNotUnderstood, tr3, cache2)
      else
        let fetchStep :=
          if jsArrayTruthy searchBreakdown.similarToAssetIds then
            (env.getAssetEmbeddings searchBreakdown.similarToAssetIds,
             [Event.getAssetEmbeddings searchBreakdown.similarToAssetIds])
          else ([], [])
        let textStep :=
          if jsStringTruthy searchBreakdown.searchText then
            (fetchStep.1 ++ [env.encodeText searchBreakdown.searchText dto.language],
             [Event.encodeText searchBreakdown.searchText dto.language])
          else (fetchStep.1, ([] : List Event))
        let searchEmbeddings := textStep.1
        let tr4 := tr3 ++ fetchStep.2 ++ textStep.2
        if searchEmbeddings.length > 1 then
          let embedding := env.averageEmbeddings searchEmbeddings
          let res := env.searchSmartRepo page size userIds (some embedding)
          let tr5 := tr4 ++ [Event.averageEmbeddings searchEmbeddings,
                             Event.searchSmartRepo page size userIds (some embedding)]
          (Except.ok (mapResponse res.1
              (if res.2 then some (Nat.toDigits 10 (page + 1)) else none)),
           tr5, cache2)
        else
          let res := env.searchSmartRepo page size userIds searchEmbeddings.head?
          let tr5 := tr4 ++ [Event.searchSmartRepo page size userIds
                               searchEmbeddings.head?]
          (Except.ok (mapResponse res.1
              (if res.2 then some (Nat.toDigits 10 (page + 1)) else none)),
           tr5, cache2)

/-- A concrete collaborator environment used to evaluate the code on
concrete requests. -/
def sampleEnv : Env :=
  { smartSearchEnabled := true
    clipModelName := "ViT-B-32__openai".toList
    partnerIds := ["partner-1".toList]
    encodeText := fun text _ => 'E' :: text
    getAssetEmbeddings := fun ids => ids
    averageEmbeddings := fun embeddings => 'A' :: embeddings.flatten
    searchSmartRepo := fun _ _ _ _ => ([7], true) }

/-- A concrete authenticated caller. -/
def sampleAuth : AuthDto := { userId := "user-1".toList, elevated := true }

/-- Event classifier: a text-encoding collaborator call. -/
def isEncodeEvent : Event → Bool
  | .encodeText _ _ => true
  | _ => false

/-- Event classifier: a reference-embedding batch fetch. -/
def isFetchEvent : Event → Bool
  | .getAssetEmbeddings _ => true
  | _ => false

/-- Event classifier: a nearest-neighbor index call. -/
def isRepoSearchEvent : Event → Bool
  | .searchSmartRepo _ _ _ _ => true
  | _ => false

/-- Whether a result is the `QueryNotUnderstood` failure. -/
def isQueryNotUnderstood : Except SearchError SearchResponse → Bool
  | .error .queryNotUnderstood => true
  | _ => false

/-- Whether the first character exists and is whitespace. -/
def headWs : List Char → Bool
  | [] => false
  | c :: _ => jsWs c

/-- Whether the last character exists and is whitespace. -/
def endsWs (s : List Char) : Bool := headWs s.reverse

/-- Whether the last character exists and is a comma. -/
def endsComma (s : List Char) : Bool :=
  match s.reverse with
  | c :: _ => c == ','
  | [] => false

/-- Whether the string contains no two adjacent whitespace characters. -/
def noDoubleWs : List Char → Bool
  | [] => true
  | [_] => true
  | c :: d :: rest => !(jsWs c && jsWs d) && noDoubleWs (d :: rest)

/-- Spec-side characterisation of the reference matches of a raw query
(spec, QueryParser): the matches are found left to right (no match starts
before the reported one), each is a case-insensitive `similarTo:` head
followed by a token that is a non-empty run of non-whitespace characters,
the token is maximal (the text after it is empty or starts with
whitespace), and scanning continues after the match, non-overlapping. -/
inductive OccList : List Char → List (List Char × List Char) → Prop where
  | nil (s : List Char) :
      (∀ i, matchStartB (s.drop i) = false) → OccList s []
  | cons (pre sim tok post : List Char) (ms : List (List Char × List Char)) :
      (∀ i, i < pre.length →
        matchStartB ((pre ++ sim ++ tok ++ post).drop i) = false) →
      sim.map asciiLower = simPat →
      tok ≠ [] →
      (∀ c ∈ tok, jsWs c = false) →
      (post = [] ∨ ∃ d post2, post = d :: post2 ∧ jsWs d = true) →
      OccList post ms →
      OccList (pre ++ sim ++ tok ++ post) ((sim ++ tok, tok) :: ms)

/-- A request whose raw query is the empty string. -/
def emptyQueryDto : SmartSearchDto :=
  { query := "".toList, language := "en".toList, page := none, size := none
    visibility := none }

/-- A request whose raw query is plain text with no reference tokens. -/
def catQueryDto : SmartSearchDto :=
  { query := "cat".toList, language := "en".toList, page := none, size := none
    visibility := none }

/-- Evaluation of the code on the empty query, starting from an empty cache. -/
def emptyRun := searchSmart sampleEnv [] sampleAuth emptyQueryDto

/-- Evaluation of the code on the plain-text query, from an empty cache. -/
def catRun := searchSmart sampleEnv [] sampleAuth catQueryDto

/-- A second, identical request evaluated against the cache state left behind
by `catRun` (two successive resolutions with the same cache key). -/
def catRun2 := searchSmart sampleEnv catRun.2.2 sampleAuth catQueryDto

theorem length_dropWhile_le (p : Char → Bool) (l : List Char) :
    (l.dropWhile p).length ≤ l.length := by
  induction l with
  | nil => simp
  | cons c rest IH =>
    rw [List.dropWhile_cons]
    split
    · exact Nat.le_trans IH (by simp)
    · simp

theorem matchStartB_nil : matchStartB [] = false := by decide

theorem scanF_fuel (n : Nat) :
    ∀ (m : Nat) (s : List Char), s.length ≤ n → s.length ≤ m →
      scanF n s = scanF m s := by
  induction n using Nat.strong_induction_on with
  | _ n IH =>
    intro m s hn hm
    cases s with
    | nil => cases n <;> cases m <;> rfl
    | cons c rest =>
      cases n with
      | zero => simp [List.length_cons] at hn
      | succ n1 =>
        cases m with
        | zero => simp [List.length_cons] at hm
        | succ m1 =>
          simp only [scanF]
          by_cases h : matchStartB (c :: rest) = true
          · rw [if_pos h, if_pos h]
            congr 1
            have hlen : ((c :: rest).drop (10 + (tokenAt (c :: rest)).length)).length
                ≤ rest.length := by
              rw [List.length_drop, List.length_cons]; omega
            have hn1 : rest.length ≤ n1 := by
              rw [List.length_cons] at hn; omega
            have hm1 : rest.length ≤ m1 := by
              rw [List.length_cons] at hm; omega
            exact IH n1 (Nat.lt_succ_self n1) m1 _
              (Nat.le_trans hlen hn1) (Nat.le_trans hlen hm1)
          · rw [if_neg h, if_neg h]
            have hn1 : rest.length ≤ n1 := by
              rw [List.length_cons] at hn; omega
            have hm1 : rest.length ≤ m1 := by
              rw [List.length_cons] at hm; omega
            exact IH n1 (Nat.lt_succ_self n1) m1 rest hn1 hm1

theorem scan_cons_of_match (c : Char) (rest : List Char)
    (h : matchStartB (c :: rest) = true) :
    scan (c :: rest) =
      ((c :: rest).take (10 + (tokenAt (c :: rest)).length), tokenAt (c :: rest))
        :: scan ((c :: rest).drop (10 + (tokenAt (c :: rest)).length)) := by
  show scanF (rest.length + 1) (c :: rest) = _
  simp only [scanF]
  rw [if_pos h]
  congr 1
  apply scanF_fuel
  · rw [List.length_drop, List.length_cons]; omega
  · exact Nat.le_refl _

theorem scan_cons_of_not (c : Char) (rest : List Char)
    (h : matchStartB (c :: rest) = false) :
    scan (c :: rest) = scan rest := by
  show scanF (rest.length + 1) (c :: rest) = scan rest
  simp only [scanF]
  rw [if_neg (by simp [h])]
  rfl

theorem scan_of_match (s : List Char) (h : matchStartB s = true) :
    scan s =
      (s.take (10 + (tokenAt s).length), tokenAt s)
        :: scan (s.drop (10 + (tokenAt s).length)) := by
  cases s with
  | nil => rw [matchStartB_nil] at h; cases h
  | cons c rest => exact scan_cons_of_match c rest h

theorem hasMatch_drop (s : List Char) (h : hasMatch s = false) :
    ∀ i, matchStartB (s.drop i) = false := by
  induction s with
  | nil => intro i; rw [List.drop_nil]; exact matchStartB_nil
  | cons c rest IH =>
    have h0 : matchStartB (c :: rest) = false ∧ hasMatch rest = false := by
      simpa [hasMatch, Bool.or_eq_false_iff] using h
    intro i
    cases i with
    | zero => simpa using h0.1
    | succ j => rw [List.drop_succ_cons]; exact IH h0.2 j

theorem scan_eq_nil (s : List Char)
    (h : ∀ i, matchStartB (s.drop i) = false) : scan s = [] := by
  induction s with
  | nil => rfl
  | cons c rest IH =>
    rw [scan_cons_of_not c rest (by simpa using h 0)]
    exact IH (fun i => by have h2 := h (i + 1); rwa [List.drop_succ_cons] at h2)

theorem takeWhile_all_append (p : Char → Bool) (tok post : List Char)
    (h : ∀ c ∈ tok, p c = true) :
    (tok ++ post).takeWhile p = tok ++ post.takeWhile p := by
  induction tok with
  | nil => simp
  | cons c t IH =>
    rw [List.cons_append, List.takeWhile_cons, if_pos (h c (List.mem_cons_self c t)),
      IH (fun d hd => h d (List.mem_cons_of_mem c hd))]
    rfl

theorem dropWhile_head_neg (p : Char → Bool) :
    ∀ (l : List Char) (d : Char) (r : List Char),
      l.dropWhile p = d :: r → p d = false := by
  intro l
  induction l with
  | nil => intro d r h; simp at h
  | cons c cs IH =>
    intro d r h
    rw [List.dropWhile_cons] at h
    by_cases hc : p c = true
    · rw [if_pos hc] at h; exact IH d r h
    · rw [if_neg hc] at h
      cases h
      simpa using hc

theorem head_match_parts (s : List Char) (h : matchStartB s = true) :
    (s.take 10).map asciiLower = simPat ∧
    tokenAt s ≠ [] ∧
    s = s.take 10 ++ tokenAt s ++ (s.drop 10).dropWhile (fun c => !jsWs c) ∧
    s.take (10 + (tokenAt s).length) = s.take 10 ++ tokenAt s ∧
    s.drop (10 + (tokenAt s).length) = (s.drop 10).dropWhile (fun c => !jsWs c) := by
  have h0 : ((s.take 10).map asciiLower == simPat) = true ∧
      (!(tokenAt s).isEmpty) = true := by
    simpa [matchStartB, Bool.and_eq_true] using h
  have h1 : (s.take 10).map asciiLower = simPat := by
    have h2 := h0.1; rwa [beq_iff_eq] at h2
  have h2 : tokenAt s ≠ [] := by
    intro hnil
    have h3 := h0.2
    rw [hnil] at h3
    simp at h3
  have hsplit : tokenAt s ++ (s.drop 10).dropWhile (fun c => !jsWs c) = s.drop 10 :=
    List.takeWhile_append_dropWhile _ _
  have htake : s.take (10 + (tokenAt s).length) = s.take 10 ++ tokenAt s := by
    rw [List.take_add]
    congr 1
    conv_lhs => rw [← hsplit]
    exact List.take_left _ _
  have hdrop : s.drop (10 + (tokenAt s).length) =
      (s.drop 10).dropWhile (fun c => !jsWs c) := by
    rw [← List.drop_drop]
    conv_lhs => rw [← hsplit]
    exact List.drop_left _ _
  have hs : s = s.take 10 ++ tokenAt s ++ (s.drop 10).dropWhile (fun c => !jsWs c) := by
    conv_lhs => rw [← List.take_append_drop 10 s, ← hsplit]
    rw [List.append_assoc]
  exact ⟨h1, h2, hs, htake, hdrop⟩

theorem match_parts (sim tok post : List Char)
    (hsim : sim.map asciiLower = simPat)
    (htok : tok ≠ [])
    (hall : ∀ c ∈ tok, jsWs c = false)
    (hpost : post = [] ∨ ∃ d post2, post = d :: post2 ∧ jsWs d = true) :
    matchStartB (sim ++ tok ++ post) = true ∧
    tokenAt (sim ++ tok ++ post) = tok ∧
    (sim ++ tok ++ post).take (10 + tok.length) = sim ++ tok ∧
    (sim ++ tok ++ post).drop (10 + tok.length) = post := by
  have hlen : sim.length = 10 := by
    have h1 := congrArg List.length hsim
    rw [List.length_map] at h1
    rw [h1]
    rfl
  have hassoc : sim ++ tok ++ post = sim ++ (tok ++ post) := List.append_assoc _ _ _
  have htake10 : (sim ++ tok ++ post).take 10 = sim := by
    rw [hassoc, ← hlen]; exact List.take_left _ _
  have hdrop10 : (sim ++ tok ++ post).drop 10 = tok ++ post := by
    rw [hassoc, ← hlen]; exact List.drop_left _ _
  have htokAt : tokenAt (sim ++ tok ++ post) = tok := by
    simp only [tokenAt]
    rw [hdrop10, takeWhile_all_append _ _ _ (fun c hc => by simp [hall c hc])]
    rcases hpost with hnil | ⟨d, post2, hcons, hd⟩
    · rw [hnil]; simp
    · rw [hcons, List.takeWhile_cons, if_neg (by simp [hd])]
      exact List.append_nil _
  refine ⟨?_, htokAt, ?_, ?_⟩
  · rw [matchStartB, htake10, hsim, htokAt]
    cases tok with
    | nil => exact absurd rfl htok
    | cons d t => simp
  · rw [List.take_add, htake10, hdrop10]
    congr 1
    exact List.take_left _ _
  · rw [← List.drop_drop, hdrop10]
    exact List.drop_left _ _

theorem occ_shift (c : Char) (s : List Char) (ms : List (List Char × List Char))
    (h : matchStartB (c :: s) = false) (ho : OccList s ms) :
    OccList (c :: s) ms := by
  cases ho with
  | nil _ hnone =>
    refine OccList.nil _ (fun i => ?_)
    cases i with
    | zero => simpa using h
    | succ j => rw [List.drop_succ_cons]; exact hnone j
  | cons pre sim tok post ms2 hleft hsim htok hall hpost hrec =>
    have heq : c :: (pre ++ sim ++ tok ++ post) = (c :: pre) ++ sim ++ tok ++ post := by
      simp
    rw [heq]
    refine OccList.cons (c :: pre) sim tok post ms2 (fun i hi => ?_) hsim htok hall
      hpost hrec
    cases i with
    | zero => rw [List.drop_zero, ← heq]; exact h
    | succ j =>
      rw [← heq, List.drop_succ_cons]
      exact hleft j (by simpa [List.length_cons] using hi)

theorem occList_congr {ms : List (List Char × List Char)} (s s2 : List Char)
    (h : s = s2) (ho : OccList s ms) : OccList s2 ms := h ▸ ho

theorem scan_skip (pre m : List Char)
    (h : ∀ i, i < pre.length → matchStartB ((pre ++ m).drop i) = false) :
    scan (pre ++ m) = scan m := by
  induction pre with
  | nil => rw [List.nil_append]
  | cons c pre2 IH =>
    have h0 : matchStartB (c :: (pre2 ++ m)) = false := by
      have h1 := h 0 (by simp)
      rwa [List.cons_append, List.drop_zero] at h1
    rw [List.cons_append, scan_cons_of_not _ _ h0]
    exact IH (fun i hi => by
      have h2 := h (i + 1) (by simpa [List.length_cons] using hi)
      rwa [List.cons_append, List.drop_succ_cons] at h2)

theorem occList_scan (s : List Char) : OccList s (scan s) := by
  have key : ∀ (n : Nat) (s : List Char), s.length = n → OccList s (scan s) := by
    intro n
    induction n using Nat.strong_induction_on with
    | _ n IH =>
      intro s hn
      by_cases hm : matchStartB s = true
      · obtain ⟨h1, h2, hs, htk, hdr⟩ := head_match_parts s hm
        rw [scan_of_match s hm, htk, hdr]
        have hlt : ((s.drop 10).dropWhile (fun c => !jsWs c)).length < n := by
          have h3 := congrArg List.length hs
          have h4 : 0 < (tokenAt s).length := List.length_pos.mpr h2
          rw [List.length_append, List.length_append] at h3
          omega
        have hrec : OccList ((s.drop 10).dropWhile (fun c => !jsWs c))
            (scan ((s.drop 10).dropWhile (fun c => !jsWs c))) :=
          IH _ hlt _ rfl
        have hmem : ∀ c ∈ tokenAt s, jsWs c = false := by
          intro c hc
          have h5 := List.mem_takeWhile_imp hc
          simpa using h5
        have hpostCond : ((s.drop 10).dropWhile (fun c => !jsWs c) = []) ∨
            ∃ d p2, (s.drop 10).dropWhile (fun c => !jsWs c) = d :: p2 ∧
              jsWs d = true := by
          cases hp : (s.drop 10).dropWhile (fun c => !jsWs c) with
          | nil => exact Or.inl rfl
          | cons d p2 =>
            refine Or.inr ⟨d, p2, rfl, ?_⟩
            have h6 := dropWhile_head_neg _ _ _ _ hp
            simpa using h6
        have hcons := OccList.cons [] (s.take 10) (tokenAt s)
          ((s.drop 10).dropWhile (fun c => !jsWs c))
          (scan ((s.drop 10).dropWhile (fun c => !jsWs c)))
          (fun i hi => absurd hi (by simp)) h1 h2 hmem hpostCond hrec
        exact occList_congr _ _ (by rw [List.nil_append]; exact hs.symm) hcons
      · have hm2 : matchStartB s = false := by simpa using hm
        cases s with
        | nil =>
          exact OccList.nil [] (fun i => by rw [List.drop_nil]; exact matchStartB_nil)
        | cons c rest =>
          rw [scan_cons_of_not c rest hm2]
          have hrec : OccList rest (scan rest) :=
            IH rest.length (by rw [← hn]; simp) rest rfl
          exact occ_shift c rest (scan rest) hm2 hrec
  exact key s.length s rfl

theorem occList_unique (s : List Char) (ms : List (List Char × List Char))
    (ho : OccList s ms) : ms = scan s := by
  induction ho with
  | nil s hnone => exact (scan_eq_nil s hnone).symm
  | cons pre sim tok post ms2 hleft hsim htok hall hpost hrec IH =>
    obtain ⟨hm, htokAt, htake, hdrop⟩ := match_parts sim tok post hsim htok hall hpost
    have hassoc : pre ++ sim ++ tok ++ post = pre ++ (sim ++ tok ++ post) := by
      simp
    have hskip : scan (pre ++ sim ++ tok ++ post) = scan (sim ++ tok ++ post) := by
      rw [hassoc]
      apply scan_skip
      intro i hi
      rw [← hassoc]
      exact hleft i hi
    rw [hskip, scan_of_match _ hm, htokAt, htake, hdrop, IH]

theorem collapseF_fuel (n : Nat) :
    ∀ (m : Nat) (s : List Char), s.length ≤ n → s.length ≤ m →
      collapseF n s = collapseF m s := by
  induction n using Nat.strong_induction_on with
  | _ n IH =>
    intro m s hn hm
    cases s with
    | nil => cases n <;> cases m <;> rfl
    | cons c rest =>
      cases n with
      | zero => simp [List.length_cons] at hn
      | succ n1 =>
        cases m with
        | zero => simp [List.length_cons] at hm
        | succ m1 =>
          cases rest with
          | nil => rfl
          | cons d rest2 =>
            simp only [collapseF]
            rw [List.length_cons, List.length_cons] at hn hm
            by_cases hww : (jsWs c && jsWs d) = true
            · rw [if_pos hww, if_pos hww]
              congr 1
              have hlen : ((d :: rest2).dropWhile jsWs).length ≤ rest2.length + 1 := by
                simpa using length_dropWhile_le jsWs (d :: rest2)
              exact IH n1 (Nat.lt_succ_self n1) m1 _ (by omega) (by omega)
            · rw [if_neg hww, if_neg hww]
              congr 1
              exact IH n1 (Nat.lt_succ_self n1) m1 (d :: rest2)
                (by rw [List.length_cons]; omega) (by rw [List.length_cons]; omega)

theorem collapse_cons2 (c d : Char) (r : List Char) :
    collapse (c :: d :: r) =
      if jsWs c && jsWs d then ' ' :: collapse ((d :: r).dropWhile jsWs)
      else c :: collapse (d :: r) := by
  show collapseF (r.length + 2) (c :: d :: r) = _
  simp only [collapseF]
  by_cases hww : (jsWs c && jsWs d) = true
  · rw [if_pos hww, if_pos hww]
    congr 1
    apply collapseF_fuel
    · have h1 := length_dropWhile_le jsWs (d :: r)
      rw [List.length_cons] at h1
      omega
    · exact Nat.le_refl _
  · rw [if_neg hww, if_neg hww]
    rfl

theorem ends_cons (c : Char) (rest : List Char) (h : rest ≠ []) :
    endsWs (c :: rest) = endsWs rest ∧ endsComma (c :: rest) = endsComma rest := by
  obtain ⟨x, xs, hx⟩ : ∃ x xs, rest.reverse = x :: xs := by
    cases hr : rest.reverse with
    | nil => exact absurd (List.reverse_eq_nil_iff.mp hr) h
    | cons x xs => exact ⟨x, xs, rfl⟩
  have hrev : (c :: rest).reverse = x :: (xs ++ [c]) := by
    rw [List.reverse_cons, hx]; rfl
  constructor
  · simp [endsWs, hrev, hx, headWs]
  · simp [endsComma, hrev, hx]

theorem strip1_cons (c : Char) (rest : List Char) :
    strip1 (c :: rest) =
      if c == ',' && rest.all jsWs then [] else c :: strip1 rest := rfl

theorem strip1_id : ∀ (s : List Char),
    endsWs s = false → endsComma s = false → strip1 s = s := by
  intro s
  induction s with
  | nil => intro _ _; rfl
  | cons c rest IH =>
    intro h4 h5
    cases rest with
    | nil =>
      have hc : (c == ',') = false := by
        simpa [endsComma, headWs] using h5
      rw [strip1_cons]
      simp [hc, strip1]
    | cons d r =>
      have hne : (d :: r : List Char) ≠ [] := by simp
      have h4r : endsWs (d :: r) = false := by
        rw [← (ends_cons c (d :: r) hne).1]; exact h4
      have h5r : endsComma (d :: r) = false := by
        rw [← (ends_cons c (d :: r) hne).2]; exact h5
      have hguard : (c == ',' && (d :: r).all jsWs) = false := by
        by_cases hall : (d :: r).all jsWs = true
        · exfalso
          obtain ⟨x, xs, hx⟩ : ∃ x xs, (d :: r).reverse = x :: xs := by
            cases hxx : (d :: r).reverse with
            | nil => exact absurd (List.reverse_eq_nil_iff.mp hxx) hne
            | cons x xs => exact ⟨x, xs, rfl⟩
          have hxmem : x ∈ d :: r :=
            List.mem_reverse.mp (by rw [hx]; exact List.mem_cons_self x xs)
          have hwsx : jsWs x = true := List.all_eq_true.mp hall x hxmem
          have hend : endsWs (d :: r) = true := by
            simp [endsWs, hx, headWs, hwsx]
          rw [hend] at h4r
          simp at h4r
        · have h6 : (d :: r).all jsWs = false := by simpa using hall
          simp [h6]
      rw [strip1_cons, if_neg (by rw [hguard]; simp), IH h4r h5r]

theorem strip2_id (s : List Char) (h5 : endsComma s = false) : strip2 s = s := by
  unfold strip2
  split
  · rename_i r heq
    rw [endsComma, heq] at h5
    simp at h5
  · rfl

theorem collapse_id (s : List Char) (h2 : noDoubleWs s = true) : collapse s = s := by
  induction s with
  | nil => rfl
  | cons c rest IH =>
    cases rest with
    | nil => rfl
    | cons d r =>
      have h0 : (jsWs c && jsWs d) = false ∧ noDoubleWs (d :: r) = true := by
        have h1 := h2
        simp only [noDoubleWs, Bool.and_eq_true, Bool.not_eq_true'] at h1
        exact h1
      rw [collapse_cons2, if_neg (by simp [h0.1]), IH h0.2]

theorem jsTrim_id (s : List Char) (h3 : headWs s = false) (h4 : endsWs s = false) :
    jsTrim s = s := by
  have h1 : s.dropWhile jsWs = s := by
    cases s with
    | nil => rfl
    | cons c rest =>
      rw [List.dropWhile_cons, if_neg]
      simp only [headWs] at h3
      simp [h3]
  rw [jsTrim, h1]
  have h2 : s.reverse.dropWhile jsWs = s.reverse := by
    cases hrev : s.reverse with
    | nil => rfl
    | cons x xs =>
      rw [List.dropWhile_cons, if_neg]
      simp only [endsWs, hrev, headWs] at h4
      simp [h4]
  rw [h2, List.reverse_reverse]

theorem cleanup_id (s : List Char) (h2 : noDoubleWs s = true)
    (h3 : headWs s = false) (h4 : endsWs s = false) (h5 : endsComma s = false) :
    cleanup s = s := by
  rw [cleanup, strip1_id s h4 h5, strip2_id s h5, collapse_id s h2,
    jsTrim_id s h3 h4]

theorem strip1_pass_a (a m : List Char) (hm : m.all jsWs = false) :
    strip1 (a ++ m) = a ++ strip1 m := by
  induction a with
  | nil => simp
  | cons c a2 IH =>
    rw [List.cons_append, strip1_cons,
      if_neg (by rw [List.all_append, hm]; simp), IH]
    rfl

theorem strip1_pass_u (u b : List Char) (hnc : ∀ c ∈ u, (c == ',') = false) :
    strip1 (u ++ b) = u ++ strip1 b := by
  induction u with
  | nil => simp
  | cons c u2 IH =>
    rw [List.cons_append, strip1_cons,
      if_neg (by rw [hnc c (List.mem_cons_self c u2)]; simp),
      IH (fun d hd => hnc d (List.mem_cons_of_mem c hd))]
    rfl

theorem dropWhile_append_blocked (p : Char → Bool) (x : List Char) :
    ∀ (d : Char) (y : List Char), p d = false →
      (x ++ d :: y).dropWhile p = x.dropWhile p ++ d :: y := by
  induction x with
  | nil => intro d y hd; simp [List.dropWhile_cons, hd]
  | cons c x2 IH =>
    intro d y hd
    rw [List.cons_append, List.dropWhile_cons, List.dropWhile_cons]
    by_cases hc : p c = true
    · rw [if_pos hc, if_pos hc]; exact IH d y hd
    · rw [if_neg hc, if_neg hc]; rfl

theorem strip2_of_head_not_comma (s : List Char)
    (h : ∀ c, s.reverse.head? = some c → (c == ',') = false) : strip2 s = s := by
  unfold strip2
  split
  · rename_i r heq
    have h2 := h ',' (by rw [heq]; rfl)
    simp at h2
  · rfl

theorem strip2_of_rev_comma (s r : List Char) (heq : s.reverse = ',' :: r) :
    strip2 s = (r.dropWhile jsWs).reverse := by
  unfold strip2
  split
  · rename_i r2 heq2
    rw [heq] at heq2
    cases heq2
    rfl
  · rename_i hne2
    exact absurd heq (hne2 r)

theorem strip2_pass (a u b : List Char) (hne : u ≠ [])
    (hnw : ∀ c ∈ u, jsWs c = false) (hnc : ∀ c ∈ u, (c == ',') = false) :
    strip2 (a ++ u ++ b) = a ++ u ++ strip2 b := by
  obtain ⟨x, xs, hx⟩ : ∃ x xs, u.reverse = x :: xs := by
    cases hr : u.reverse with
    | nil => exact absurd (List.reverse_eq_nil_iff.mp hr) hne
    | cons x xs => exact ⟨x, xs, rfl⟩
  have hxmem : x ∈ u :=
    List.mem_reverse.mp (by rw [hx]; exact List.mem_cons_self x xs)
  have hrev : (a ++ u ++ b).reverse = b.reverse ++ (x :: (xs ++ a.reverse)) := by
    rw [List.reverse_append, List.reverse_append, hx]
    rfl
  cases hb : b.reverse with
  | nil =>
    have hb0 : b = [] := List.reverse_eq_nil_iff.mp hb
    have h1 : strip2 (a ++ u ++ b) = a ++ u ++ b :=
      strip2_of_head_not_comma _ (fun c hc => by
        rw [hrev, hb] at hc
        simp at hc
        rw [← hc]
        exact hnc x hxmem)
    rw [h1, hb0]
    rfl
  | cons y br =>
    by_cases hy : y = ','
    · subst hy
      have hLrev : (a ++ u ++ b).reverse = ',' :: (br ++ (x :: (xs ++ a.reverse))) := by
        rw [hrev, hb]
        rfl
      rw [strip2_of_rev_comma _ _ hLrev, strip2_of_rev_comma b br hb,
        dropWhile_append_blocked jsWs br x (xs ++ a.reverse) (hnw x hxmem),
        List.reverse_append]
      have hxu : (x :: (xs ++ a.reverse) : List Char) = (a ++ u).reverse := by
        rw [List.reverse_append, hx]
        rfl
      rw [hxu, List.reverse_reverse]
    · have h1 : strip2 b = b :=
        strip2_of_head_not_comma b (fun c hc => by
          rw [hb] at hc
          simp at hc
          rw [← hc]
          simp [hy])
      have h2 : strip2 (a ++ u ++ b) = a ++ u ++ b :=
        strip2_of_head_not_comma _ (fun c hc => by
          rw [hrev, hb] at hc
          simp at hc
          rw [← hc]
          simp [hy])
      rw [h1, h2]

theorem collapse_nonws_append (u : List Char) (hu : ∀ c ∈ u, jsWs c = false) :
    ∀ y, collapse (u ++ y) = u ++ collapse y := by
  induction u with
  | nil => intro y; simp
  | cons c u2 IH =>
    intro y
    have hc : jsWs c = false := hu c (List.mem_cons_self c u2)
    have IH2 := IH (fun d hd => hu d (List.mem_cons_of_mem c hd))
    cases hrest : u2 ++ y with
    | nil =>
      obtain ⟨hu2, hy⟩ := List.append_eq_nil.mp hrest
      subst hu2
      subst hy
      rfl
    | cons d r =>
      rw [List.cons_append, hrest, collapse_cons2, if_neg (by rw [hc]; simp),
        ← hrest, IH2]
      rfl

theorem collapse_pass : ∀ (n : Nat) (a : List Char), a.length ≤ n →
    ∀ (u b : List Char), u ≠ [] → (∀ c ∈ u, jsWs c = false) →
      ∃ a2, collapse (a ++ u ++ b) = a2 ++ u ++ collapse b := by
  intro n
  induction n using Nat.strong_induction_on with
  | _ n IH =>
    intro a hn u b hne hu
    cases a with
    | nil =>
      refine ⟨[], ?_⟩
      rw [List.nil_append, collapse_nonws_append u hu b]
    | cons c a2 =>
      obtain ⟨x, u2, hxu⟩ : ∃ x u2, u = x :: u2 := by
        cases u with
        | nil => exact absurd rfl hne
        | cons x u2 => exact ⟨x, u2, rfl⟩
      have hxmem : x ∈ u := by rw [hxu]; exact List.mem_cons_self x u2
      cases hrest : a2 ++ u ++ b with
      | nil =>
        exfalso
        obtain ⟨h1, _⟩ := List.append_eq_nil.mp hrest
        obtain ⟨_, h2⟩ := List.append_eq_nil.mp h1
        exact hne h2
      | cons d r =>
        have hcons : (c :: a2) ++ u ++ b = c :: (a2 ++ u ++ b) := by simp
        rw [hcons, hrest, collapse_cons2]
        by_cases hww : (jsWs c && jsWs d) = true
        · rw [if_pos hww]
          have hsplit : (d :: r : List Char) = a2 ++ (x :: (u2 ++ b)) := by
            rw [← hrest, hxu]
            simp
          rw [hsplit,
            dropWhile_append_blocked jsWs a2 x (u2 ++ b) (hu x hxmem)]
          have hb2 : (x :: (u2 ++ b) : List Char) = u ++ b := by
            rw [hxu]
            rfl
          rw [hb2, ← List.append_assoc]
          have hlt : (a2.dropWhile jsWs).length < n := by
            have h3 := length_dropWhile_le jsWs a2
            rw [List.length_cons] at hn
            omega
          obtain ⟨a3, ha3⟩ := IH (a2.dropWhile jsWs).length hlt
            (a2.dropWhile jsWs) (Nat.le_refl _) u b hne hu
          rw [ha3]
          exact ⟨' ' :: a3, rfl⟩
        · rw [if_neg hww, ← hrest]
          have hlt : a2.length < n := by
            rw [List.length_cons] at hn
            omega
          obtain ⟨a3, ha3⟩ := IH a2.length hlt a2 (Nat.le_refl _) u b hne hu
          rw [ha3]
          exact ⟨c :: a3, rfl⟩

theorem jsTrim_pass (a u b : List Char) (hne : u ≠ [])
    (hu : ∀ c ∈ u, jsWs c = false) :
    jsTrim (a ++ u ++ b) =
      a.dropWhile jsWs ++ u ++ (b.reverse.dropWhile jsWs).reverse := by
  obtain ⟨x, u2, hxu⟩ : ∃ x u2, u = x :: u2 := by
    cases u with
    | nil => exact absurd rfl hne
    | cons x u2 => exact ⟨x, u2, rfl⟩
  obtain ⟨y, ys, hyu⟩ : ∃ y ys, u.reverse = y :: ys := by
    cases hr : u.reverse with
    | nil => exact absurd (List.reverse_eq_nil_iff.mp hr) hne
    | cons y ys => exact ⟨y, ys, rfl⟩
  have hymem : y ∈ u :=
    List.mem_reverse.mp (by rw [hyu]; exact List.mem_cons_self y ys)
  have h1 : (a ++ u ++ b).dropWhile jsWs = a.dropWhile jsWs ++ (u ++ b) := by
    have hsh : a ++ u ++ b = a ++ (x :: (u2 ++ b)) := by
      rw [hxu]
      simp
    rw [hsh, dropWhile_append_blocked jsWs a x (u2 ++ b)
      (hu x (by rw [hxu]; exact List.mem_cons_self x u2))]
    rw [hxu]
    rfl
  have h2 : (a.dropWhile jsWs ++ (u ++ b)).reverse =
      b.reverse ++ (y :: (ys ++ (a.dropWhile jsWs).reverse)) := by
    rw [List.reverse_append, List.reverse_append, hyu]
    simp
  rw [jsTrim, h1, h2,
    dropWhile_append_blocked jsWs b.reverse y (ys ++ (a.dropWhile jsWs).reverse)
      (hu y hymem),
    List.reverse_append]
  have h3 : (y :: (ys ++ (a.dropWhile jsWs).reverse) : List Char) =
      (a.dropWhile jsWs ++ u).reverse := by
    rw [List.reverse_append, hyu]
    rfl
  rw [h3, List.reverse_reverse]

theorem cleanup_pass (a u b : List Char) (hne : u ≠ [])
    (hu : ∀ c ∈ u, jsWs c = false) (hnc : ∀ c ∈ u, (c == ',') = false) :
    ∃ a2 b2, cleanup (a ++ u ++ b) = a2 ++ u ++ b2 := by
  have huall : (u ++ b).all jsWs = false := by
    obtain ⟨x, u2, hxu⟩ : ∃ x u2, u = x :: u2 := by
      cases u with
      | nil => exact absurd rfl hne
      | cons x u2 => exact ⟨x, u2, rfl⟩
    rw [List.all_append, hxu]
    have : jsWs x = false := hu x (by rw [hxu]; exact List.mem_cons_self x u2)
    simp [this]
  have h1 : strip1 (a ++ u ++ b) = a ++ u ++ strip1 b := by
    rw [List.append_assoc, strip1_pass_a a (u ++ b) huall,
      strip1_pass_u u b hnc, ← List.append_assoc]
  have h2 : strip2 (a ++ u ++ strip1 b) = a ++ u ++ strip2 (strip1 b) :=
    strip2_pass a u (strip1 b) hne hu hnc
  obtain ⟨a3, h3⟩ := collapse_pass a.length a (Nat.le_refl _) u
    (strip2 (strip1 b)) hne hu
  have h4 := jsTrim_pass a3 u (collapse (strip2 (strip1 b))) hne hu
  exact ⟨a3.dropWhile jsWs,
    ((collapse (strip2 (strip1 b))).reverse.dropWhile jsWs).reverse,
    by rw [cleanup, h1, h2, h3, h4]⟩

theorem jsWs_asciiLower (c : Char) (h : jsWs c = true) : asciiLower c = c := by
  simp only [jsWs, Bool.or_eq_true, beq_iff_eq, Bool.and_eq_true,
    decide_eq_true_eq] at h
  rcases h with ((((((((((((((h|h)|h)|h)|h)|h)|h)|h)|h)|h)|h)|h)|h)|h)|h) <;>
    first
      | (subst h; decide)
      | (simp only [asciiLower]; rw [if_neg (by omega)])

theorem simPat_chars (u : List Char) (hu : u.map asciiLower = simPat) :
    ∀ c ∈ u, jsWs c = false ∧ (c == ',') = false := by
  intro c hc
  have hmem : asciiLower c ∈ simPat := by
    rw [← hu]
    exact List.mem_map_of_mem asciiLower hc
  constructor
  · by_contra h
    have hws : jsWs c = true := by revert h; cases jsWs c <;> simp
    rw [jsWs_asciiLower c hws] at hmem
    have hall : ∀ p ∈ simPat, jsWs p = false := by decide
    rw [hall c hmem] at hws
    exact Bool.noConfusion hws
  · by_contra h
    have hcc : (c == ',') = true := by revert h; cases c == ',' <;> simp
    have hc2 : c = ',' := by simpa using hcc
    subst hc2
    exact absurd hmem (by decide)

theorem simPat_ne_nil (u : List Char) (hu : u.map asciiLower = simPat) :
    u ≠ [] := by
  intro h
  subst h
  simp [simPat] at hu

/-- C1: the claim says that a raw query parsing to empty `searchText` and
empty `referenceIds` makes `searchSmart` fail with `QueryNotUnderstood`
before any reference-embedding fetch or text-encoding call. The code instead
guards with `!searchBreakdown.similarToAssetIds`, which is always false for
an array value, so the empty query is not rejected: the run completes without
that failure and both the text encoder and the reference-embedding fetch are
invoked. -/
theorem c1_empty_query_not_rejected :
    parseQuery "".toList = ⟨[], []⟩ ∧
    isQueryNotUnderstood emptyRun.1 = false ∧
    Event.encodeText "".toList "en".toList ∈ emptyRun.2.1 ∧
    Event.getAssetEmbeddings [] ∈ emptyRun.2.1 := by decide

/-- C2: the claim says the batch reference-embedding fetch is invoked if and
only if `referenceIds` is non-empty. On the query `cat`, `parseQuery` yields
no reference ids, yet the code still performs exactly one
`getAssetEmbeddings` call, with the empty id list, because
`if (searchBreakdown.similarToAssetIds)` is always true for an array. -/
theorem c2_fetch_called_despite_empty_ids :
    (parseQuery "cat".toList).similarToAssetIds = [] ∧
    catRun.2.1.filter isFetchEvent = [Event.getAssetEmbeddings []] := by decide

/-- C3: the claim says that two successive resolutions with the same
(model, searchText, language) key invoke the external text encoder at most
once in total. Evaluating two successive identical requests shows three
encoder calls in total: the leftover single-embedding block encodes the raw
query on the first run (and only that block consults the cache, keyed on the
raw query), while the multi-reference block encodes the parsed search text on
every run without consulting the cache. -/
theorem c3_second_resolution_reencodes :
    catRun.2.1.countP isEncodeEvent = 2 ∧
    catRun2.2.1.countP isEncodeEvent = 1 ∧
    Event.encodeText "cat".toList "en".toList ∈ catRun2.2.1 := by decide

/-- C4 counterexample: the cache key is plain string concatenation
`modelName + query + language`, which collides for triples that differ in
both the model and the language even with identical (here empty) query text:
`"a" + "" + "b"` and `"ab" + "" + ""` are both `"ab"`. -/
theorem c4_counterexample :
    cacheKey "a".toList "".toList "b".toList =
      cacheKey "ab".toList "".toList "".toList ∧
    "a".toList ≠ "ab".toList ∧ "b".toList ≠ "".toList := by decide

/-- C4 (amended): keys are distinct when exactly one of the model identifier
or the language differs and the other two components agree; two triples that
differ in both components may collide even for identical text. -/
theorem c4_key_separation (m m2 t l l2 : List Char)
    (h : (m = m2 ∧ l ≠ l2) ∨ (l = l2 ∧ m ≠ m2)) :
    cacheKey m t l ≠ cacheKey m2 t l2 := by
  rcases h with ⟨hm, hl⟩ | ⟨hl, hm⟩
  · subst hm
    intro he
    exact hl (List.append_cancel_left he)
  · subst hl
    intro he
    exact hm (List.append_cancel_right (List.append_cancel_right he))

/-- C4 witness: same model and text, different language, distinct keys. -/
theorem c4_key_separation_witness :
    cacheKey "a".toList "t".toList "en".toList ≠
      cacheKey "a".toList "t".toList "de".toList :=
  c4_key_separation "a".toList "a".toList "t".toList "en".toList "de".toList
    (Or.inl ⟨rfl, by decide⟩)

/-- C5: the claim says the nearest-neighbor index is invoked exactly once per
request. The code as written invokes `searchRepository.searchSmart` twice:
once from the leftover single-cached-embedding block and once from the
multi-reference block. Both calls do use page 1 and size 100 (the defaults)
and the scope `[requesting user, sharing partners]`. -/
theorem c5_index_called_twice :
    catRun.2.1.countP isRepoSearchEvent = 2 ∧
    catRun.2.1.filter isRepoSearchEvent =
      [Event.searchSmartRepo 1 100 ["user-1".toList, "partner-1".toList]
         (some ('E' :: "cat".toList)),
       Event.searchSmartRepo 1 100 ["user-1".toList, "partner-1".toList]
         (some ('E' :: "cat".toList))] := by decide

/-- C6 counterexample: the claim says the post-processing strips at most a
single trailing comma, so `a,,` should keep its first trailing comma. The two
successive `replace` calls strip both commas: the parsed search text of
`a,,` is `a`, not `a,`. -/
theorem c6_counterexample :
    (parseQuery "a,,".toList).searchText = "a".toList ∧
    (parseQuery "a,,".toList).searchText ≠ "a,".toList := by decide

/-- C6 (amended): the post-processing strips a trailing comma in each of two
successive passes (first a comma followed only by whitespace, then any
whitespace followed by a final comma), then collapses whitespace runs and
trims; in particular a string ending in two commas loses both, leaving the
collapsed and trimmed remainder. -/
theorem c6_two_pass_comma_strip (t : List Char)
    (h4 : endsWs t = false) :
    cleanup (t ++ [',', ',']) = jsTrim (collapse t) := by
  have h1 : strip1 (t ++ [',', ',']) = t ++ [','] := by
    have h0 : strip1 ([',', ','] : List Char) = [','] := by decide
    rw [strip1_pass_a t [',', ','] (by decide), h0]
  have h2 : strip2 (t ++ [',']) = t := by
    have hrev : (t ++ [',']).reverse = ',' :: t.reverse := by
      rw [List.reverse_append]
      rfl
    rw [strip2_of_rev_comma _ _ hrev]
    have hdw : t.reverse.dropWhile jsWs = t.reverse := by
      cases hr : t.reverse with
      | nil => rfl
      | cons x xs =>
        rw [List.dropWhile_cons, if_neg]
        simp only [endsWs, hr, headWs] at h4
        simp [h4]
    rw [hdw, List.reverse_reverse]
  rw [cleanup, h1, h2]

/-- C6 witness: `a,,` cleans to `a`, the normalisation of the part before the
two trailing commas. -/
theorem c6_two_pass_comma_strip_witness :
    cleanup ("a".toList ++ [',', ',']) = jsTrim (collapse "a".toList) :=
  c6_two_pass_comma_strip "a".toList (by decide)

/-- C7: the parser collects exactly the token parts of the left-to-right,
non-overlapping, case-insensitive `similarTo:<token>` matches (tokens are
maximal non-whitespace runs), in order and without deduplication
(`OccList s (scan s)` together with uniqueness of such a match list), and the
returned search text is the post-processed result of removing each matched
full pattern (its first remaining occurrence, in match order) from the raw
query. -/
theorem c7_reference_extraction (s : List Char) :
    OccList s (scan s) ∧
    (∀ ms, OccList s ms → ms = scan s) ∧
    (parseQuery s).similarToAssetIds = (scan s).map Prod.snd ∧
    (parseQuery s).searchText =
      cleanup (((scan s).map Prod.fst).foldl (fun t m => removeFirst m t) s) :=
  ⟨occList_scan s, fun ms h => occList_unique s ms h, rfl, by
    rw [List.foldl_map]
    rfl⟩

/-- C7 witness: on `similarTo:ab cat` the unique occurrence list is the
single match `similarTo:ab` with token `ab`, and it equals `scan`. -/
theorem c7_reference_extraction_witness :
    ([("similarTo:ab".toList, "ab".toList)] : List (List Char × List Char)) =
      scan "similarTo:ab cat".toList :=
  (c7_reference_extraction "similarTo:ab cat".toList).2.1
    [("similarTo:ab".toList, "ab".toList)]
    (occList_congr _ _ (by decide)
      (OccList.cons [] "similarTo:".toList "ab".toList " cat".toList []
        (fun i hi => absurd hi (by simp))
        (by decide) (by decide) (by decide)
        (Or.inr ⟨' ', "cat".toList, by decide, by decide⟩)
        (OccList.nil " cat".toList (hasMatch_drop " cat".toList (by decide)))))

/-- C8: a locked-visibility request from an auth without the elevated grant
fails with `InsufficientPermission` and the collaborator trace is empty: no
configuration, directory, encoder, storage or index call happens first. -/
theorem c8_locked_requires_elevation (env : Env) (cache : Cache)
    (auth : AuthDto) (dto : SmartSearchDto)
    (hvis : dto.visibility = some AssetVisibility.locked)
    (helev : auth.elevated = false) :
    searchSmart env cache auth dto =
      (Except.error SearchError.insufficientPermission, [], cache) := by
  unfold searchSmart
  rw [if_pos ⟨hvis, helev⟩]

/-- C8 witness: a concrete locked request without the grant. -/
theorem c8_locked_requires_elevation_witness :
    searchSmart sampleEnv [] { userId := "user-1".toList, elevated := false }
      { query := "cat".toList, language := "en".toList, page := none,
        size := none, visibility := some AssetVisibility.locked } =
      (Except.error SearchError.insufficientPermission, [], []) :=
  c8_locked_requires_elevation sampleEnv []
    { userId := "user-1".toList, elevated := false }
    { query := "cat".toList, language := "en".toList, page := none,
      size := none, visibility := some AssetVisibility.locked } rfl rfl

/-- C9: the parser is the identity on already-clean text: with no reference
match anywhere, no two adjacent whitespace characters, no leading or trailing
whitespace and no trailing comma, `parseQuery` returns the input unchanged as
`searchText` with empty `similarToAssetIds`. -/
theorem c9_parser_idempotent (s : List Char)
    (h1 : hasMatch s = false) (h2 : noDoubleWs s = true)
    (h3 : headWs s = false) (h4 : endsWs s = false)
    (h5 : endsComma s = false) :
    (parseQuery s).similarToAssetIds = [] ∧ (parseQuery s).searchText = s := by
  have hscan : scan s = [] := scan_eq_nil s (hasMatch_drop s h1)
  constructor
  · show (scan s).map Prod.snd = []
    rw [hscan]
    rfl
  · show cleanup ((scan s).foldl (fun t m => removeFirst m.1 t) s) = s
    rw [hscan]
    exact cleanup_id s h2 h3 h4 h5

/-- C9 witness: `sunset beach` is returned unchanged. -/
theorem c9_parser_idempotent_witness :
    (parseQuery "sunset beach".toList).similarToAssetIds = [] ∧
    (parseQuery "sunset beach".toList).searchText = "sunset beach".toList :=
  c9_parser_idempotent "sunset beach".toList (by decide) (by decide)
    (by decide) (by decide) (by decide)

/-- C10 counterexample: in `similarTo:abcsimilarTo: x` the occurrence of
`similarTo:` at index 13 is not followed by a non-whitespace character, yet
its text does not survive into the returned search text: it lies inside the
token of the match starting at index 0, so the whole
`similarTo:abcsimilarTo:` is removed and the final search text `x` is even
shorter than the pattern. -/
theorem c10_counterexample :
    ((("similarTo:abcsimilarTo: x".toList).drop 13).take 10).map asciiLower
      = simPat ∧
    tokenAt (("similarTo:abcsimilarTo: x".toList).drop 13) = [] ∧
    (parseQuery "similarTo:abcsimilarTo: x".toList).searchText = "x".toList ∧
    (parseQuery "similarTo:abcsimilarTo: x".toList).similarToAssetIds =
      ["abcsimilarTo:".toList] ∧
    ("x".toList).length < simPat.length := by decide

/-- C10 (amended): an occurrence of `similarTo:` not immediately followed by
a non-whitespace character starts no match; when no occurrence in the whole
input starts a match, the parser extracts nothing and the occurrence's text
survives into the returned search text. (When such an occurrence lies inside
the token of another match, it is removed together with that match.) -/
theorem c10_unfollowed_reference (s a u b : List Char)
    (hs : s = a ++ u ++ b)
    (hu : u.map asciiLower = simPat)
    (hnm : hasMatch s = false) :
    (parseQuery s).similarToAssetIds = [] ∧
    ∃ a2 b2, (parseQuery s).searchText = a2 ++ u ++ b2 := by
  have hchars := simPat_chars u hu
  have hne := simPat_ne_nil u hu
  have hscan : scan s = [] := scan_eq_nil s (hasMatch_drop s hnm)
  constructor
  · show (scan s).map Prod.snd = []
    rw [hscan]
    rfl
  · show ∃ a2 b2,
      cleanup ((scan s).foldl (fun t m => removeFirst m.1 t) s) = a2 ++ u ++ b2
    rw [hscan]
    show ∃ a2 b2, cleanup s = a2 ++ u ++ b2
    rw [hs]
    exact cleanup_pass a u b hne (fun c hc => (hchars c hc).1)
      (fun c hc => (hchars c hc).2)

/-- C10 witness: `similarTo: x` has an unfollowed occurrence at the start;
nothing is extracted and the occurrence survives into the search text. -/
theorem c10_unfollowed_reference_witness :
    (parseQuery "similarTo: x".toList).similarToAssetIds = [] ∧
    ∃ a2 b2, (parseQuery "similarTo: x".toList).searchText =
      a2 ++ "similarTo:".toList ++ b2 :=
  c10_unfollowed_reference "similarTo: x".toList [] "similarTo:".toList
    " x".toList (by decide) (by decide) (by decide)
